import Mathlib

/-!
Verification of the eigenvalue/buckling solver and the arc-length driver
retry policy of the gsStructuralAnalysis repository.

The embedding works over exact rational arithmetic (`ℚ`), idealizing the
floating-point `real_t` of the source.  The external numerical collaborators
(the dense Eigen `GeneralizedSelfAdjointEigenSolver` and the Spectra sparse
iterative solvers) are abstracted as oracle functions: the embedding records
exactly which matrices, subspace sizes, iteration caps and tolerances the
source hands to them (gsBucklingSolver.hpp lines 36-97), and the theorems
assume only that the oracle output consists of generalized eigenpairs of the
pencil it was given — the contract of those libraries.
-/

namespace StructAnalysis

/-- Square rational matrices of size n, standing for gsMatrix / gsSparseMatrix. -/
abbrev Mat (n : ℕ) := Matrix (Fin n) (Fin n) ℚ

/-- Vectors of size n, standing for gsVector. -/
abbrev Vec (n : ℕ) := Fin n → ℚ

/-- An (eigenvalue, eigenvector) pair, the element type of the stored
`m_values` / `m_vectors` columns. -/
abbrev EPair (n : ℕ) := ℚ × Vec n

/-- `(μ, v)` is a generalized eigenpair of the pencil `(A, B)`:
`A v = μ B v` with `v ≠ 0`. -/
def IsGenPair {n : ℕ} (A B : Mat n) (p : EPair n) : Prop :=
  p.2 ≠ 0 ∧ A.mulVec p.2 = p.1 • B.mulVec p.2

instance {n : ℕ} (A B : Mat n) (p : EPair n) : Decidable (IsGenPair A B p) :=
  inferInstanceAs (Decidable (p.2 ≠ 0 ∧ A.mulVec p.2 = p.1 • B.mulVec p.2))

/-- `M` is symmetric positive-definite. -/
def SymPosDef {n : ℕ} (M : Mat n) : Prop :=
  M.IsSymm ∧ ∀ v : Vec n, v ≠ 0 → 0 < Matrix.dotProduct v (M.mulVec v)

/-- Every pair in the stored list satisfies the buckling residual equation
`(K_L - value * B) * vector = 0` exactly (the exact-arithmetic form of the
spec's residual tolerance). -/
def ResidualZero {n : ℕ} (K_L B : Mat n) (l : List (EPair n)) : Prop :=
  ∀ p ∈ l, (K_L - p.1 • B).mulVec p.2 = 0

instance {n : ℕ} (K_L B : Mat n) (l : List (EPair n)) :
    Decidable (ResidualZero K_L B l) :=
  inferInstanceAs (Decidable (∀ p ∈ l, (K_L - p.1 • B).mulVec p.2 = 0))

/-- Embedding of `gsBucklingSolver::compute(T shift)` (gsBucklingSolver.hpp,
lines 36-48).  The dense solver `m_eigSolver` is abstracted as the oracle
`eig`; the source calls
`m_eigSolver.compute(m_linear - shift*(m_nonlinear - m_linear), m_nonlinear - m_linear)`
and then stores the eigenvalues shifted back by `+shift`
(`m_values.array() += shift`) together with the unchanged eigenvectors. -/
def compute {n : ℕ} (eig : Mat n → Mat n → List (EPair n))
    (K_L K_NL : Mat n) (shift : ℚ) : List (EPair n) :=
  (eig (K_L - shift • (K_NL - K_L)) (K_NL - K_L)).map (fun p => (p.1 + shift, p.2))

/-- The request a `computeSparse_impl` instantiation hands to Spectra:
the matrix pencil, the number of requested eigenvalues `nev`, the Krylov
subspace size `ncv`, the iteration cap and tolerance passed to
`solver.compute`, and (for the shift-solver family) the shift `sigma`
given to the solver constructor. -/
structure SpectraCall (n : ℕ) where
  A : Mat n
  B : Mat n
  nev : ℕ
  ncv : ℕ
  maxIt : ℕ
  tol : ℚ
  sigma : Option ℚ

/-- What the Spectra oracle reports back: whether
`solver.info() == Spectra::CompInfo::Successful`, and the computed pairs. -/
structure SpectraOutput (n : ℕ) where
  success : Bool
  pairs : List (EPair n)

/-- The Spectra request built by the Cholesky / RegularInverse instantiation
of `computeSparse_impl` (gsBucklingSolver.hpp lines 56-66): the pencil is
`(m_linear - shift*(m_nonlinear - m_linear), m_nonlinear - m_linear)`, the
solver is constructed with `(lhs, rhs, number, 2*number)` and run with
`solver.compute(SortRule::SmallestMagn, 1000, 1e-6, SortRule::SmallestMagn)`. -/
def sparseCholCall {n : ℕ} (K_L K_NL : Mat n) (shift : ℚ) (number : ℕ) :
    SpectraCall n :=
  { A := K_L - shift • (K_NL - K_L)
    B := K_NL - K_L
    nev := number
    ncv := 2 * number
    maxIt := 1000
    tol := 1 / 1000000
    sigma := none }

/-- The Spectra request built by the ShiftInvert / Buckling / Cayley
instantiation of `computeSparse_impl` (gsBucklingSolver.hpp lines 84-90):
the solver is constructed with `(m_linear, m_nonlinear - m_linear, number,
2*number, shift)` and run with the same cap 1000 and tolerance 1e-6. -/
def sparseShiftCall {n : ℕ} (K_L K_NL : Mat n) (shift : ℚ) (number : ℕ) :
    SpectraCall n :=
  { A := K_L
    B := K_NL - K_L
    nev := number
    ncv := 2 * number
    maxIt := 1000
    tol := 1 / 1000000
    sigma := some shift }

/-- Embedding of the Cholesky / RegularInverse `computeSparse_impl`
(gsBucklingSolver.hpp lines 50-73).  On Spectra success the stored values are
the solver eigenvalues shifted back by `+shift` (`m_values.array() += shift`)
with the matching eigenvectors; otherwise the assertion
`GISMO_ASSERT(solver.info()==Spectra::CompInfo::Successful, "Spectra did not converge!")`
fails, modelled as the error value carrying that message. -/
def computeSparse_impl_chol {n : ℕ} (spectra : SpectraCall n → SpectraOutput n)
    (K_L K_NL : Mat n) (shift : ℚ) (number : ℕ) :
    Except String (List (EPair n)) :=
  let out := spectra (sparseCholCall K_L K_NL shift number)
  if out.success then
    Except.ok (out.pairs.map (fun p => (p.1 + shift, p.2)))
  else
    Except.error "Spectra did not converge!"

/-- Embedding of the ShiftInvert / Buckling / Cayley `computeSparse_impl`
(gsBucklingSolver.hpp lines 75-97).  On Spectra success the stored values are
the solver eigenvalues unchanged — this branch performs no `+= shift` —
otherwise the same assertion failure as in the Cholesky branch. -/
def computeSparse_impl_shift {n : ℕ} (spectra : SpectraCall n → SpectraOutput n)
    (K_L K_NL : Mat n) (shift : ℚ) (number : ℕ) :
    Except String (List (EPair n)) :=
  let out := spectra (sparseShiftCall K_L K_NL shift number)
  if out.success then
    Except.ok out.pairs
  else
    Except.error "Spectra did not converge!"

/-- The option list built by `gsEigenProblemBase::defaultOptions`
(gsEigenProblemBase.h lines 185-220), with its documented defaults:
solver 0 (Cholesky), selectionRule 4, sortRule 4, and ncvFac 3 whose doc
string reads "Factor for Spectra's ncv number. Ncv = ncvFac * numEigenvalues". -/
structure EigenOptions where
  verbose : Bool
  solver : ℤ
  selectionRule : ℤ
  sortRule : ℤ
  ncvFac : ℤ

def defaultOptions : EigenOptions :=
  { verbose := false, solver := 0, selectionRule := 4, sortRule := 4, ncvFac := 3 }

/-- Embedding of `gsEigenProblemBase::computeSparse` (gsEigenProblemBase.h
lines 227-243): dispatch on the "solver" option to the Cholesky/RegularInverse
implementation (options 0 and 1) or the ShiftInvert/Buckling/Cayley
implementation (options 2, 3 and 4).  For any other option value the source
leaves the stored values untouched, modelled by returning `prev`.
The source's default arguments are `shift = 0.0`, `number = 10`. -/
def computeSparse {n : ℕ} (opts : EigenOptions)
    (spectra : SpectraCall n → SpectraOutput n) (K_L K_NL : Mat n)
    (prev : Except String (List (EPair n))) (shift : ℚ) (number : ℕ) :
    Except String (List (EPair n)) :=
  if opts.solver = 0 then computeSparse_impl_chol spectra K_L K_NL shift number
  else if opts.solver = 1 then computeSparse_impl_chol spectra K_L K_NL shift number
  else if opts.solver = 2 then computeSparse_impl_shift spectra K_L K_NL shift number
  else if opts.solver = 3 then computeSparse_impl_shift spectra K_L K_NL shift number
  else if opts.solver = 4 then computeSparse_impl_shift spectra K_L K_NL shift number
  else prev

/-- Exact inverse of a rational matrix, `A.det⁻¹ • A.adjugate`, standing for
Eigen's dense `.inverse()` in `computePower` (gsBucklingSolver.hpp line 103);
it coincides with Mathlib's `A⁻¹` (see `qInv_eq_inv`). -/
def qInv {n : ℕ} (A : Mat n) : Mat n := A.det⁻¹ • A.adjugate

/-- The iteration matrix of `computePower`:
`D = m_linear.inverse() * (m_nonlinear - m_linear)` (line 103). -/
def powD {n : ℕ} (K_L K_NL : Mat n) : Mat n := qInv K_L * (K_NL - K_L)

/-- `v.normalize()`: division of every entry by the norm of `v`.  The norm
function (Euclidean in the source) is the explicit parameter `nrm`, since no
total rational-valued function can be the Euclidean norm in dimension > 1;
every theorem below holds for an arbitrary `nrm`, and the concrete dimension-1
instances use `absNorm`, which is exactly the Euclidean norm there. -/
def normalizeV {n : ℕ} (nrm : Vec n → ℚ) (v : Vec n) : Vec n :=
  fun i => v i / nrm v

/-- The Euclidean norm of a vector of dimension 1. -/
def absNorm (v : Vec 1) : ℚ := |v 0|

/-- The tolerance `tol = 1e-5` of `computePower` (line 111). -/
def powTol : ℚ := 1 / 100000

/-- The iteration cap `kmax = 100` of `computePower` (line 110). -/
def powKmax : ℕ := 100

/-- Embedding of the `for (k=0; k!=kmax; k++)` loop of `computePower`
(gsBucklingSolver.hpp lines 112-123): each pass sets `v = D*v`,
normalizes it, and breaks when `(v - v_old).norm() < tol`; otherwise it
records `v_old = v` and continues.  `fuel` is the number of passes left. -/
def powerLoop {n : ℕ} (nrm : Vec n → ℚ) (D : Mat n) :
    ℕ → Vec n → Vec n → Vec n
  | 0, v, _ => v
  | fuel + 1, v, vold =>
    let w := normalizeV nrm (D.mulVec v)
    if nrm (w - vold) < powTol then w
    else powerLoop nrm D fuel w w

/-- The stored result of `computePower`: `m_vectors` (a single column) and
`m_values` (a single scalar). -/
structure PowerResult (n : ℕ) where
  vec : Vec n
  val : ℚ

/-- Embedding of `gsBucklingSolver::computePower` (gsBucklingSolver.hpp
lines 99-129): power iteration on `D = K_L⁻¹ (K_NL - K_L)` starting from the
all-ones vector with `v_old = 0`, capped at `kmax = 100` passes, and final
stored value `(vᵀv) / (vᵀ D v)` (line 126).  The function is total: the
source signals no error on non-convergence. -/
def computePower {n : ℕ} (nrm : Vec n → ℚ) (K_L K_NL : Mat n) : PowerResult n :=
  let D := powD K_L K_NL
  let v := powerLoop nrm D powKmax (fun _ => 1) 0
  { vec := v
    val := Matrix.dotProduct v v / Matrix.dotProduct v (D.mulVec v) }

/-- The sequence of normalized iterates of the power method:
`powOrbit 0` is the all-ones start vector and
`powOrbit (k+1) = normalize (D * powOrbit k)`. -/
def powOrbit {n : ℕ} (nrm : Vec n → ℚ) (D : Mat n) : ℕ → Vec n
  | 0 => fun _ => 1
  | k + 1 => normalizeV nrm (D.mulVec (powOrbit nrm D k))

/-- The `v_old` value against which the k-th iterate is compared: the zero
vector for the first pass, the previous iterate afterwards. -/
def powVold {n : ℕ} (nrm : Vec n → ℚ) (D : Mat n) : ℕ → Vec n
  | 0 => 0
  | 1 => 0
  | k + 2 => powOrbit nrm D (k + 1)

/-- The stopping error computed in the k-th pass of the loop (`k ≥ 1`):
`(v - v_old).norm()`. -/
def powErr {n : ℕ} (nrm : Vec n → ℚ) (D : Mat n) (k : ℕ) : ℚ :=
  nrm (powOrbit nrm D k - powVold nrm D k)

/-- Modelled from the spec: the fixed-size (single-template) specialization of
`gsBucklingSolver`, whose `computeSparse` implementation is not under src/
(only the two-template variant is).  Per spec section 4.2 the underlying
solver returns eigenpairs in ascending smallest-algebraic order and the
specialization explicitly reverses the values, with the eigenvector column
order reversed to match. -/
def computeSparseFixed {n : ℕ} (raw : List (EPair n)) : List (EPair n) :=
  raw.reverse

/-- The driver-owned variables of the pre-buckling load-step loop of
benchmark_Wrinkling_DWR.cpp: the step counter `k`, the arc length `dLb`,
and the last accepted solution `(Uold, Lold)`. -/
structure ALDriverState (n : ℕ) where
  k : ℤ
  dLb : ℚ
  Uold : Vec n
  Lold : ℚ

/-- Embedding of one body of the driver loop
(benchmark_Wrinkling_DWR.cpp lines 592-640, retry branch lines 604-613).
The arc-length engine is the oracle `stp`, invoked exactly once per body with
the current length and the last accepted solution (`setLength(dLb)` followed
by `step()`); `none` stands for `converged() == false`.  On failure the driver
halves `dLb` (`dLb = dLb / 2`), resets the engine to the previously accepted
solution (`setLength`/`setSolution(Uold, Lold)`), and decrements `k`
(`k -= 1; continue`); on success it accepts the engine's new solution. -/
def driverBody {n : ℕ} (stp : ℚ → Vec n × ℚ → Option (Vec n × ℚ))
    (s : ALDriverState n) : ALDriverState n :=
  match stp s.dLb (s.Uold, s.Lold) with
  | none => { k := s.k - 1, dLb := s.dLb / 2, Uold := s.Uold, Lold := s.Lold }
  | some (U, L) => { k := s.k, dLb := s.dLb, Uold := U, Lold := L }

/-- One full iteration of the `for (; k<step; k++)` loop: the body followed by
the loop increment `k++` (which the failure branch's `k -= 1` cancels,
so the failed step index is re-run). -/
def driverIter {n : ℕ} (stp : ℚ → Vec n × ℚ → Option (Vec n × ℚ))
    (s : ALDriverState n) : ALDriverState n :=
  let t := driverBody stp s
  { t with k := t.k + 1 }

/-- The 1×1 matrix with the given entry, for the concrete single-DOF
scenarios. -/
def oneByOne (x : ℚ) : Mat 1 := Matrix.of fun _ _ => x

/-- The constant vector of dimension 1. -/
def cvec (c : ℚ) : Vec 1 := fun _ => c

/-- A dense solver oracle for the 1-DOF witnesses: on any input pencil it
reports the single pair (1, the one-vector). -/
def eigOne : Mat 1 → Mat 1 → List (EPair 1) := fun _ _ => [(1, fun _ => 1)]

/-- A Spectra oracle for the witnesses: always successful, reporting the
single pair (1, the one-vector). -/
def spectraOne : SpectraCall 1 → SpectraOutput 1 :=
  fun _ => { success := true, pairs := [(1, fun _ => 1)] }

/-- An ascending two-pair solver output for the reversal witness. -/
def rawAsc : List (EPair 1) := [(1, fun _ => 1), (2, fun _ => 1)]

/-- A step oracle that never converges, for the retry witness. -/
def stpNone : ℚ → Vec 1 × ℚ → Option (Vec 1 × ℚ) := fun _ _ => none

/-- The initial driver state of the retry witness: step counter 5, arc length
`dLb = 8`, last accepted solution zero. -/
def sInit : ALDriverState 1 := { k := 5, dLb := 8, Uold := fun _ => 0, Lold := 0 }

/-- From an eigenpair of the shifted pencil `(K_L - s B, B)` with raw
eigenvalue μ, the shifted-back value `μ + s` is an eigenvalue of the
unshifted pencil `(K_L, B)` with the same eigenvector. -/
lemma shift_back {n : ℕ} (K_L B : Mat n) (s μ : ℚ) (v : Vec n)
    (h : (K_L - s • B).mulVec v = μ • B.mulVec v) :
    K_L.mulVec v = (μ + s) • B.mulVec v := by
  have h1 : K_L.mulVec v - s • B.mulVec v = μ • B.mulVec v := by
    rw [← Matrix.smul_mulVec_assoc, ← Matrix.sub_mulVec]
    exact h
  have h2 : K_L.mulVec v = μ • B.mulVec v + s • B.mulVec v := by
    rw [← h1]
    abel
  rw [h2, add_smul]

/-- The residual form of `shift_back`: the stored pair annihilates
`K_L - value * B`. -/
lemma shift_back_residual {n : ℕ} (K_L B : Mat n) (s μ : ℚ) (v : Vec n)
    (h : (K_L - s • B).mulVec v = μ • B.mulVec v) :
    (K_L - (μ + s) • B).mulVec v = 0 := by
  rw [Matrix.sub_mulVec, Matrix.smul_mulVec_assoc, shift_back K_L B s μ v h,
    sub_self]

lemma qInv_eq_inv {n : ℕ} (A : Mat n) : qInv A = A⁻¹ := by
  rw [qInv, Matrix.inv_def, Ring.inverse_eq_inv]

/-- The one-pass unfolding of the loop. -/
lemma powerLoop_succ {n : ℕ} (nrm : Vec n → ℚ) (D : Mat n) (f : ℕ)
    (v vold : Vec n) :
    powerLoop nrm D (f + 1) v vold
      = if nrm (normalizeV nrm (D.mulVec v) - vold) < powTol
        then normalizeV nrm (D.mulVec v)
        else powerLoop nrm D f (normalizeV nrm (D.mulVec v))
          (normalizeV nrm (D.mulVec v)) := rfl

lemma oneByOne_mulVec (x : ℚ) (v : Vec 1) :
    (oneByOne x).mulVec v = fun _ => x * v 0 := by
  funext i
  simp [oneByOne, Matrix.mulVec, Matrix.dotProduct, Fin.sum_univ_one]

lemma vec_one_ne_zero (v : Vec 1) (hv : v ≠ 0) : v 0 ≠ 0 := by
  intro h0
  exact hv (funext fun i => by rw [Subsingleton.elim i 0]; exact h0)

lemma oneByOne_sub (a b : ℚ) : oneByOne a - oneByOne b = oneByOne (a - b) := by
  funext i j
  simp [oneByOne, Matrix.sub_apply]

lemma oneByOne_smul (c a : ℚ) : c • oneByOne a = oneByOne (c * a) := by
  funext i j
  simp [oneByOne, Matrix.smul_apply]

lemma ones_ne_zero : (fun _ => (1 : ℚ) : Vec 1) ≠ 0 := by
  intro h0
  exact one_ne_zero (congrFun h0 0)

lemma isGenPair_oneByOne (a b μ : ℚ) (h : a = μ * b) :
    IsGenPair (oneByOne a) (oneByOne b) (μ, fun _ => 1) := by
  refine ⟨ones_ne_zero, ?_⟩
  rw [oneByOne_mulVec]
  rw [oneByOne_mulVec]
  funext i
  simp [Pi.smul_apply, h]

section Theorems

/-- C2.  `compute(shift)` hands the dense solver exactly the pencil
`(K_L - shift*(K_NL - K_L), K_NL - K_L)` (visible in the definition of
`compute`); assuming the solver returns generalized eigenpairs of that
pencil, every stored eigenvalue is the solver eigenvalue shifted back by
`+shift`, the eigenvectors are stored unchanged, and consequently every
stored pair is a generalized eigenpair of the unshifted pencil
`(K_L, K_NL - K_L)`. -/
theorem compute_shift_decomposition {n : ℕ} (K_L K_NL : Mat n) (shift : ℚ)
    (eig : Mat n → Mat n → List (EPair n))
    (hd : ∀ p ∈ eig (K_L - shift • (K_NL - K_L)) (K_NL - K_L),
      IsGenPair (K_L - shift • (K_NL - K_L)) (K_NL - K_L) p) :
    (compute eig K_L K_NL shift).map Prod.fst
        = ((eig (K_L - shift • (K_NL - K_L)) (K_NL - K_L)).map Prod.fst).map
            (fun μ => μ + shift) ∧
    (compute eig K_L K_NL shift).map Prod.snd
        = (eig (K_L - shift • (K_NL - K_L)) (K_NL - K_L)).map Prod.snd ∧
    ∀ p ∈ compute eig K_L K_NL shift, IsGenPair K_L (K_NL - K_L) p := by
  refine ⟨?_, ?_, ?_⟩
  · simp [compute, List.map_map]
  · simp [compute, List.map_map]
  · intro p hp
    obtain ⟨q, hq, rfl⟩ := List.mem_map.mp hp
    obtain ⟨hv, heq⟩ := hd q hq
    exact ⟨hv, shift_back K_L (K_NL - K_L) shift q.1 q.2 heq⟩

/-- The oracle contract instance used by the witnesses: with
`K_L = [[3]]`, `K_NL = [[4]]` and shift 2, the shifted pencil is
`([[1]], [[1]])` and `(1, ones)` is a genuine eigenpair of it. -/
lemma eigOne_contract :
    ∀ p ∈ eigOne (oneByOne 3 - (2 : ℚ) • (oneByOne 4 - oneByOne 3))
        (oneByOne 4 - oneByOne 3),
      IsGenPair (oneByOne 3 - (2 : ℚ) • (oneByOne 4 - oneByOne 3))
        (oneByOne 4 - oneByOne 3) p := by
  intro p hp
  rw [eigOne, List.mem_singleton] at hp
  subst hp
  rw [oneByOne_sub, oneByOne_smul, oneByOne_sub]
  exact isGenPair_oneByOne (3 - 2 * (4 - 3)) (4 - 3) 1 (by norm_num)

theorem compute_shift_decomposition_witness :
    (∀ p ∈ eigOne (oneByOne 3 - (2 : ℚ) • (oneByOne 4 - oneByOne 3))
        (oneByOne 4 - oneByOne 3),
      IsGenPair (oneByOne 3 - (2 : ℚ) • (oneByOne 4 - oneByOne 3))
        (oneByOne 4 - oneByOne 3) p) ∧
    ((compute eigOne (oneByOne 3) (oneByOne 4) 2).map Prod.fst
        = ((eigOne (oneByOne 3 - (2 : ℚ) • (oneByOne 4 - oneByOne 3))
            (oneByOne 4 - oneByOne 3)).map Prod.fst).map (fun μ => μ + 2) ∧
      (compute eigOne (oneByOne 3) (oneByOne 4) 2).map Prod.snd
        = (eigOne (oneByOne 3 - (2 : ℚ) • (oneByOne 4 - oneByOne 3))
            (oneByOne 4 - oneByOne 3)).map Prod.snd ∧
      ∀ p ∈ compute eigOne (oneByOne 3) (oneByOne 4) 2,
        IsGenPair (oneByOne 3) (oneByOne 4 - oneByOne 3) p) :=
  ⟨eigOne_contract, compute_shift_decomposition (oneByOne 3) (oneByOne 4) 2
    eigOne eigOne_contract⟩

/-- C10.  For the single-DOF system `K_L = [[1]]`, `K_NL = [[2]]` and shift 0,
any dense solver run returning a complete (length-1) list of generalized
eigenpairs of the pencil it is given makes `compute` store exactly one
eigenvalue, equal to 1. -/
theorem single_dof_eigenvalue (eig : Mat 1 → Mat 1 → List (EPair 1))
    (hlen : (eig (oneByOne 1 - (0 : ℚ) • (oneByOne 2 - oneByOne 1))
        (oneByOne 2 - oneByOne 1)).length = 1)
    (hval : ∀ p ∈ eig (oneByOne 1 - (0 : ℚ) • (oneByOne 2 - oneByOne 1))
        (oneByOne 2 - oneByOne 1),
      IsGenPair (oneByOne 1 - (0 : ℚ) • (oneByOne 2 - oneByOne 1))
        (oneByOne 2 - oneByOne 1) p) :
    (compute eig (oneByOne 1) (oneByOne 2) 0).map Prod.fst = [1] := by
  have hA : oneByOne 1 - (0 : ℚ) • (oneByOne 2 - oneByOne 1) = oneByOne 1 := by
    rw [zero_smul, sub_zero]
  have hB : oneByOne 2 - oneByOne 1 = oneByOne 1 := by
    funext i j
    simp [oneByOne, Matrix.sub_apply]
    norm_num
  have key : ∀ p ∈ eig (oneByOne 1 - (0 : ℚ) • (oneByOne 2 - oneByOne 1))
      (oneByOne 2 - oneByOne 1), p.1 = 1 := by
    intro p hp
    obtain ⟨hv, heq⟩ := hval p hp
    rw [hA, hB, oneByOne_mulVec] at heq
    have hne := vec_one_ne_zero p.2 hv
    have h1 : p.2 0 = p.1 * p.2 0 := by
      simpa [Pi.smul_apply, smul_eq_mul] using congrFun heq 0
    have h2 : (1 : ℚ) * p.2 0 = p.1 * p.2 0 := by rw [one_mul]; exact h1
    exact (mul_right_cancel₀ hne h2).symm
  rw [compute]
  cases hl : eig (oneByOne 1 - (0 : ℚ) • (oneByOne 2 - oneByOne 1))
      (oneByOne 2 - oneByOne 1) with
  | nil => rw [hl] at hlen; simp at hlen
  | cons p t =>
    cases t with
    | nil =>
      have hp1 : p.1 = 1 := key p (by rw [hl]; exact List.mem_singleton.mpr rfl)
      simp [hl, hp1]
    | cons q t2 => rw [hl] at hlen; simp at hlen

lemma eigOne_contract_dof :
    ∀ p ∈ eigOne (oneByOne 1 - (0 : ℚ) • (oneByOne 2 - oneByOne 1))
        (oneByOne 2 - oneByOne 1),
      IsGenPair (oneByOne 1 - (0 : ℚ) • (oneByOne 2 - oneByOne 1))
        (oneByOne 2 - oneByOne 1) p := by
  intro p hp
  rw [eigOne, List.mem_singleton] at hp
  subst hp
  rw [oneByOne_sub, oneByOne_smul, oneByOne_sub]
  exact isGenPair_oneByOne (1 - 0 * (2 - 1)) (2 - 1) 1 (by norm_num)

theorem single_dof_eigenvalue_witness :
    ((eigOne (oneByOne 1 - (0 : ℚ) • (oneByOne 2 - oneByOne 1))
        (oneByOne 2 - oneByOne 1)).length = 1) ∧
    (compute eigOne (oneByOne 1) (oneByOne 2) 0).map Prod.fst = [1] :=
  ⟨rfl, single_dof_eigenvalue eigOne rfl eigOne_contract_dof⟩

/-- C1.  Assume `K_NL - K_L` is symmetric positive-definite, the dense solver
returns generalized eigenpairs of the pencil it is handed and misses no
eigenvalue of it, and the Spectra Cholesky-mode oracle returns generalized
eigenpairs of the pencil `computeSparse_impl` hands it (the same shifted
pencil, see `sparseCholCall`).  Then every pair stored by the dense path and
every pair stored by a successful sparse Cholesky path satisfies
`(K_L - value*(K_NL-K_L)) * vector = 0`, and every sparse-stored eigenvalue
is among the dense-stored eigenvalues — the two paths agree on the requested
count. -/
theorem compute_computeSparse_chol_agree {n : ℕ} (K_L K_NL : Mat n)
    (shift : ℚ) (number : ℕ) (eig : Mat n → Mat n → List (EPair n))
    (spectra : SpectraCall n → SpectraOutput n)
    (_hpd : SymPosDef (K_NL - K_L))
    (hd : ∀ p ∈ eig (K_L - shift • (K_NL - K_L)) (K_NL - K_L),
      IsGenPair (K_L - shift • (K_NL - K_L)) (K_NL - K_L) p)
    (hdAll : ∀ μ v, IsGenPair (K_L - shift • (K_NL - K_L)) (K_NL - K_L) (μ, v) →
      μ ∈ (eig (K_L - shift • (K_NL - K_L)) (K_NL - K_L)).map Prod.fst)
    (hs : ∀ p ∈ (spectra (sparseCholCall K_L K_NL shift number)).pairs,
      IsGenPair (K_L - shift • (K_NL - K_L)) (K_NL - K_L) p) :
    ResidualZero K_L (K_NL - K_L) (compute eig K_L K_NL shift) ∧
    ∀ out, computeSparse_impl_chol spectra K_L K_NL shift number = Except.ok out →
      ResidualZero K_L (K_NL - K_L) out ∧
      ∀ μ ∈ out.map Prod.fst, μ ∈ (compute eig K_L K_NL shift).map Prod.fst := by
  constructor
  · intro p hp
    obtain ⟨q, hq, rfl⟩ := List.mem_map.mp hp
    obtain ⟨hv, heq⟩ := hd q hq
    exact shift_back_residual K_L (K_NL - K_L) shift q.1 q.2 heq
  · intro out hout
    cases hsuc : (spectra (sparseCholCall K_L K_NL shift number)).success with
    | false => simp [computeSparse_impl_chol, hsuc] at hout
    | true =>
      simp [computeSparse_impl_chol, hsuc] at hout
      subst hout
      constructor
      · intro p hp
        obtain ⟨q, hq, rfl⟩ := List.mem_map.mp hp
        obtain ⟨hv, heq⟩ := hs q hq
        exact shift_back_residual K_L (K_NL - K_L) shift q.1 q.2 heq
      · intro μ hμ
        obtain ⟨p, hp, rfl⟩ := List.mem_map.mp hμ
        obtain ⟨q, hq, rfl⟩ := List.mem_map.mp hp
        have hq1 : q.1 ∈ (eig (K_L - shift • (K_NL - K_L)) (K_NL - K_L)).map
            Prod.fst := hdAll q.1 q.2 (hs q hq)
        obtain ⟨r, hr, hr1⟩ := List.mem_map.mp hq1
        refine List.mem_map.mpr ⟨(r.1 + shift, r.2), List.mem_map.mpr ⟨r, hr, rfl⟩, ?_⟩
        simp [hr1]

/-- Unique eigenvalue of a 1×1 pencil: any generalized eigenpair of
`([[a]], [[b]])` with `b ≠ 0` has eigenvalue `a / b`. -/
lemma uniq_eig_oneByOne (a b μ : ℚ) (hb : b ≠ 0) (v : Vec 1)
    (h : IsGenPair (oneByOne a) (oneByOne b) (μ, v)) : μ = a / b := by
  obtain ⟨hv, heq⟩ := h
  rw [oneByOne_mulVec] at heq
  rw [oneByOne_mulVec] at heq
  have hne := vec_one_ne_zero v hv
  have h0 : a * v 0 = μ * (b * v 0) := by
    simpa [Pi.smul_apply, smul_eq_mul] using congrFun heq 0
  have h1 : a * v 0 = μ * b * v 0 := by rw [h0]; ring
  have h2 : a = μ * b := mul_right_cancel₀ hne h1
  rw [h2]
  field_simp

lemma symPosDef_oneByOne (a : ℚ) (ha : 0 < a) : SymPosDef (oneByOne a) := by
  constructor
  · funext i j
    simp [oneByOne, Matrix.transpose_apply]
  · intro v hv
    have hne := vec_one_ne_zero v hv
    rw [oneByOne_mulVec]
    have hdot : Matrix.dotProduct v (fun _ => a * v 0) = a * (v 0 * v 0) := by
      simp [Matrix.dotProduct, Fin.sum_univ_one]
      ring
    rw [hdot]
    exact mul_pos ha (mul_self_pos.mpr hne)

lemma spd_inst : SymPosDef (oneByOne 4 - oneByOne 3) := by
  rw [oneByOne_sub]
  have h : (4 : ℚ) - 3 = 1 := by norm_num
  rw [h]
  exact symPosDef_oneByOne 1 one_pos

lemma spectraOne_contract :
    ∀ p ∈ (spectraOne (sparseCholCall (oneByOne 3) (oneByOne 4) 2 1)).pairs,
      IsGenPair (oneByOne 3 - (2 : ℚ) • (oneByOne 4 - oneByOne 3))
        (oneByOne 4 - oneByOne 3) p := by
  intro p hp
  simp only [spectraOne, List.mem_singleton] at hp
  subst hp
  rw [oneByOne_sub, oneByOne_smul, oneByOne_sub]
  exact isGenPair_oneByOne (3 - 2 * (4 - 3)) (4 - 3) 1 (by norm_num)

lemma eigOne_complete :
    ∀ μ v, IsGenPair (oneByOne 3 - (2 : ℚ) • (oneByOne 4 - oneByOne 3))
        (oneByOne 4 - oneByOne 3) (μ, v) →
      μ ∈ (eigOne (oneByOne 3 - (2 : ℚ) • (oneByOne 4 - oneByOne 3))
        (oneByOne 4 - oneByOne 3)).map Prod.fst := by
  intro μ v h
  rw [oneByOne_sub, oneByOne_smul, oneByOne_sub] at h
  have h1 := uniq_eig_oneByOne (3 - 2 * (4 - 3)) (4 - 3) μ (by norm_num) v h
  norm_num at h1
  simp [eigOne, h1]

theorem compute_computeSparse_chol_agree_witness :
    SymPosDef (oneByOne 4 - oneByOne 3) ∧
    (ResidualZero (oneByOne 3) (oneByOne 4 - oneByOne 3)
        (compute eigOne (oneByOne 3) (oneByOne 4) 2) ∧
      ∀ out, computeSparse_impl_chol spectraOne (oneByOne 3) (oneByOne 4) 2 1
          = Except.ok out →
        ResidualZero (oneByOne 3) (oneByOne 4 - oneByOne 3) out ∧
        ∀ μ ∈ out.map Prod.fst,
          μ ∈ (compute eigOne (oneByOne 3) (oneByOne 4) 2).map Prod.fst) :=
  ⟨spd_inst, compute_computeSparse_chol_agree (oneByOne 3) (oneByOne 4) 2 1
    eigOne spectraOne spd_inst eigOne_contract eigOne_complete spectraOne_contract⟩

/-- C5.  Both `computeSparse_impl` instantiations run Spectra with iteration
cap 1000 and tolerance 1e-6 (recorded in the call they build); they store
the eigenpairs exactly when Spectra reports success, and otherwise fail with
the assertion message "Spectra did not converge!", which carries the
"did not converge" text.  The source signals this via `GISMO_ASSERT`; no
retry happens inside. -/
theorem computeSparse_convergence_failure {n : ℕ}
    (spectra : SpectraCall n → SpectraOutput n) (K_L K_NL : Mat n)
    (shift : ℚ) (number : ℕ) :
    (sparseCholCall K_L K_NL shift number).maxIt = 1000 ∧
    (sparseCholCall K_L K_NL shift number).tol = 1 / 1000000 ∧
    (sparseShiftCall K_L K_NL shift number).maxIt = 1000 ∧
    (sparseShiftCall K_L K_NL shift number).tol = 1 / 1000000 ∧
    ((∃ out, computeSparse_impl_chol spectra K_L K_NL shift number
        = Except.ok out)
      ↔ (spectra (sparseCholCall K_L K_NL shift number)).success = true) ∧
    ((computeSparse_impl_chol spectra K_L K_NL shift number
        = Except.error "Spectra did not converge!")
      ↔ (spectra (sparseCholCall K_L K_NL shift number)).success = false) ∧
    ((spectra (sparseCholCall K_L K_NL shift number)).success = true →
        computeSparse_impl_chol spectra K_L K_NL shift number
          = Except.ok (((spectra (sparseCholCall K_L K_NL shift number)).pairs).map
              (fun p => (p.1 + shift, p.2)))) ∧
    ((∃ out, computeSparse_impl_shift spectra K_L K_NL shift number
        = Except.ok out)
      ↔ (spectra (sparseShiftCall K_L K_NL shift number)).success = true) ∧
    ((computeSparse_impl_shift spectra K_L K_NL shift number
        = Except.error "Spectra did not converge!")
      ↔ (spectra (sparseShiftCall K_L K_NL shift number)).success = false) ∧
    ((spectra (sparseShiftCall K_L K_NL shift number)).success = true →
        computeSparse_impl_shift spectra K_L K_NL shift number
          = Except.ok (spectra (sparseShiftCall K_L K_NL shift number)).pairs) ∧
    "did not converge".data <:+: "Spectra did not converge!".data := by
  refine ⟨rfl, rfl, rfl, rfl, ?_, ?_, ?_, ?_, ?_, ?_, ?_⟩
  · cases hsuc : (spectra (sparseCholCall K_L K_NL shift number)).success with
    | false => simp [computeSparse_impl_chol, hsuc]
    | true => simp [computeSparse_impl_chol, hsuc]
  · cases hsuc : (spectra (sparseCholCall K_L K_NL shift number)).success with
    | false => simp [computeSparse_impl_chol, hsuc]
    | true => simp [computeSparse_impl_chol, hsuc]
  · intro hsuc
    simp [computeSparse_impl_chol, hsuc]
  · cases hsuc : (spectra (sparseShiftCall K_L K_NL shift number)).success with
    | false => simp [computeSparse_impl_shift, hsuc]
    | true => simp [computeSparse_impl_shift, hsuc]
  · cases hsuc : (spectra (sparseShiftCall K_L K_NL shift number)).success with
    | false => simp [computeSparse_impl_shift, hsuc]
    | true => simp [computeSparse_impl_shift, hsuc]
  · intro hsuc
    simp [computeSparse_impl_shift, hsuc]
  · exact ⟨"Spectra ".data, "!".data, by decide⟩

/-- C8.  With the same successful raw Spectra output, the Cholesky and
RegularInverse dispatch targets (solver options 0 and 1) store the raw
eigenvalues shifted by `+shift`, while the ShiftInvert, Buckling and Cayley
targets (options 2, 3 and 4) store them unchanged; the dense `compute(shift)`
also adds `+shift`.  Hence for a nonzero shift the two sparse families report
values differing by the shift convention. -/
theorem sparse_shift_convention {n : ℕ} (K_L K_NL : Mat n) (shift : ℚ)
    (number : ℕ) (raw : List (EPair n)) (prev : Except String (List (EPair n))) :
    computeSparse { defaultOptions with solver := 0 }
        (fun _ => { success := true, pairs := raw }) K_L K_NL prev shift number
      = Except.ok (raw.map (fun p => (p.1 + shift, p.2))) ∧
    computeSparse { defaultOptions with solver := 1 }
        (fun _ => { success := true, pairs := raw }) K_L K_NL prev shift number
      = Except.ok (raw.map (fun p => (p.1 + shift, p.2))) ∧
    computeSparse { defaultOptions with solver := 2 }
        (fun _ => { success := true, pairs := raw }) K_L K_NL prev shift number
      = Except.ok raw ∧
    computeSparse { defaultOptions with solver := 3 }
        (fun _ => { success := true, pairs := raw }) K_L K_NL prev shift number
      = Except.ok raw ∧
    computeSparse { defaultOptions with solver := 4 }
        (fun _ => { success := true, pairs := raw }) K_L K_NL prev shift number
      = Except.ok raw ∧
    (compute (fun _ _ => raw) K_L K_NL shift).map Prod.fst
      = (raw.map Prod.fst).map (fun μ => μ + shift) := by
  refine ⟨rfl, rfl, rfl, rfl, rfl, ?_⟩
  simp [compute, List.map_map]

/-- C4 (code bug).  The Spectra requests built by `computeSparse_impl` use
the hardcoded Krylov subspace size `ncv = 2 * number` (gsBucklingSolver.hpp
lines 60 and 85); the `ncvFac` option — declared with default 3 and
documented as "Ncv = ncvFac * numEigenvalues" — is never consulted, so
changing it does not affect `computeSparse` at all. -/
theorem sparse_ncv_hardcoded {n : ℕ} (spectra : SpectraCall n → SpectraOutput n)
    (K_L K_NL : Mat n) (shift : ℚ) (number : ℕ) (f : ℤ)
    (prev : Except String (List (EPair n))) :
    (sparseCholCall K_L K_NL shift number).ncv = 2 * number ∧
    (sparseShiftCall K_L K_NL shift number).ncv = 2 * number ∧
    defaultOptions.ncvFac = 3 ∧
    computeSparse { defaultOptions with ncvFac := f } spectra K_L K_NL prev
        shift number
      = computeSparse defaultOptions spectra K_L K_NL prev shift number ∧
    (sparseCholCall K_L K_NL shift 10).ncv = 20 :=
  ⟨rfl, rfl, rfl, rfl, rfl⟩

/-- C3.  For the fixed-size sparse specialization (modelled from the spec in
`computeSparseFixed`), when the underlying solver returns its eigenvalues in
ascending (smallest-algebraic) order, the stored values are in descending
order — the ascending sequence reversed — and the eigenvector columns are
reversed together with them, so the k-th stored vector still belongs to the
k-th stored value. -/
theorem computeSparseFixed_reversal {n : ℕ} (raw : List (EPair n))
    (hs : List.Sorted (· ≤ ·) (raw.map Prod.fst)) :
    List.Sorted (· ≥ ·) ((computeSparseFixed raw).map Prod.fst) ∧
    (computeSparseFixed raw).map Prod.fst = (raw.map Prod.fst).reverse ∧
    (computeSparseFixed raw).map Prod.snd = (raw.map Prod.snd).reverse := by
  refine ⟨?_, ?_, ?_⟩
  · rw [computeSparseFixed, List.map_reverse]
    exact List.pairwise_reverse.mpr hs
  · rw [computeSparseFixed, List.map_reverse]
  · rw [computeSparseFixed, List.map_reverse]

theorem computeSparseFixed_reversal_witness :
    List.Sorted (· ≤ ·) (rawAsc.map Prod.fst) ∧
    (List.Sorted (· ≥ ·) ((computeSparseFixed rawAsc).map Prod.fst) ∧
      (computeSparseFixed rawAsc).map Prod.fst = (rawAsc.map Prod.fst).reverse ∧
      (computeSparseFixed rawAsc).map Prod.snd = (rawAsc.map Prod.snd).reverse) :=
  ⟨by decide, computeSparseFixed_reversal rawAsc (by decide)⟩

/-- C9.  The driver's retry policy for a non-converged arc-length step: if the
engine oracle fails at the current length, the loop body halves the length,
keeps the previously accepted solution as the starting point, and decrements
the counter, which the loop increment restores — so `step()` is re-invoked at
the same step index; after `m` consecutive failures at the same accepted
solution the state has the same counter and solution and the length
`dLb / 2^m`.  The engine is invoked exactly once per loop body and never
retries inside. -/
theorem driver_step_halving {n : ℕ} (stp : ℚ → Vec n × ℚ → Option (Vec n × ℚ))
    (s : ALDriverState n) (m : ℕ)
    (hm : ∀ j, j < m → stp (s.dLb / 2 ^ j) (s.Uold, s.Lold) = none) :
    (0 < m → driverBody stp s
      = { k := s.k - 1, dLb := s.dLb / 2, Uold := s.Uold, Lold := s.Lold }) ∧
    (driverIter stp)^[m] s
      = { k := s.k, dLb := s.dLb / 2 ^ m, Uold := s.Uold, Lold := s.Lold } := by
  induction m generalizing s with
  | zero =>
    refine ⟨fun h => absurd h (by omega), ?_⟩
    rw [Function.iterate_zero_apply, pow_zero, div_one]
  | succ m ih =>
    have h0 : stp s.dLb (s.Uold, s.Lold) = none := by
      have := hm 0 (by omega)
      rwa [pow_zero, div_one] at this
    have hbody : driverBody stp s
        = { k := s.k - 1, dLb := s.dLb / 2, Uold := s.Uold, Lold := s.Lold } := by
      rw [driverBody, h0]
    have hiter : driverIter stp s
        = { k := s.k, dLb := s.dLb / 2, Uold := s.Uold, Lold := s.Lold } := by
      rw [driverIter, hbody]
      simp
    refine ⟨fun _ => hbody, ?_⟩
    rw [Function.iterate_succ_apply, hiter]
    have hm2 : ∀ j, j < m →
        stp (s.dLb / 2 / 2 ^ j) (s.Uold, s.Lold) = none := by
      intro j hj
      have := hm (j + 1) (by omega)
      rwa [pow_succ, ← div_div, div_right_comm] at this
    have := (ih { k := s.k, dLb := s.dLb / 2, Uold := s.Uold, Lold := s.Lold }
      hm2).2
    rw [this]
    have harith : s.dLb / 2 / 2 ^ m = s.dLb / 2 ^ (m + 1) := by
      rw [div_div, ← pow_succ']
    rw [harith]

theorem driver_step_halving_witness :
    (∀ j, j < 3 → stpNone (sInit.dLb / 2 ^ j) (sInit.Uold, sInit.Lold) = none) ∧
    ((0 < 3 → driverBody stpNone sInit
        = { k := sInit.k - 1, dLb := sInit.dLb / 2, Uold := sInit.Uold,
            Lold := sInit.Lold }) ∧
      (driverIter stpNone)^[3] sInit
        = { k := sInit.k, dLb := sInit.dLb / 2 ^ 3, Uold := sInit.Uold,
            Lold := sInit.Lold }) ∧
    sInit.dLb / 2 ^ 3 = 1 :=
  ⟨fun j hj => rfl, driver_step_halving stpNone sInit 3 (fun j hj => rfl),
    by norm_num [sInit]⟩

lemma powVold_succ {n : ℕ} (nrm : Vec n → ℚ) (D : Mat n) (k : ℕ) (hk : 1 ≤ k) :
    powVold nrm D (k + 1) = powOrbit nrm D k := by
  cases k with
  | zero => exact absurd hk (by omega)
  | succ m => rfl

/-- Characterization of the "steady" tail of the loop, where `v_old` equals
the current iterate: starting at iterate k with fuel passes left, the loop
returns some iterate J with `k ≤ J ≤ k + fuel`, every pass strictly before J
saw an error at or above the tolerance, and the loop stopped either because
the J-th error was below the tolerance or because the fuel ran out. -/
lemma powerLoop_steady {n : ℕ} (nrm : Vec n → ℚ) (D : Mat n) :
    ∀ (fuel k : ℕ), 1 ≤ k →
      ∃ J, k ≤ J ∧ J ≤ k + fuel ∧
        powerLoop nrm D fuel (powOrbit nrm D k) (powOrbit nrm D k)
          = powOrbit nrm D J ∧
        (∀ i, k < i → i < J → powTol ≤ powErr nrm D i) ∧
        (powErr nrm D J < powTol ∨ J = k + fuel) := by
  intro fuel
  induction fuel with
  | zero =>
    intro k hk
    exact ⟨k, le_refl k, by omega, rfl, fun i h1 h2 => absurd h2 (by omega),
      Or.inr (by omega)⟩
  | succ f ih =>
    intro k hk
    have hstep : powerLoop nrm D (f + 1) (powOrbit nrm D k) (powOrbit nrm D k)
        = if nrm (powOrbit nrm D (k + 1) - powOrbit nrm D k) < powTol
          then powOrbit nrm D (k + 1)
          else powerLoop nrm D f (powOrbit nrm D (k + 1))
            (powOrbit nrm D (k + 1)) := rfl
    have herr : powErr nrm D (k + 1)
        = nrm (powOrbit nrm D (k + 1) - powOrbit nrm D k) := by
      rw [powErr, powVold_succ nrm D k hk]
    by_cases hc : nrm (powOrbit nrm D (k + 1) - powOrbit nrm D k) < powTol
    · refine ⟨k + 1, by omega, by omega, ?_, ?_, Or.inl ?_⟩
      · rw [hstep, if_pos hc]
      · intro i h1 h2
        exact absurd h2 (by omega)
      · rw [herr]
        exact hc
    · obtain ⟨J, hJ1, hJ2, hres, hmin, hend⟩ := ih (k + 1) (by omega)
      refine ⟨J, by omega, by omega, ?_, ?_, ?_⟩
      · rw [hstep, if_neg hc]
        exact hres
      · intro i h1 h2
        rcases Nat.eq_or_lt_of_le (Nat.succ_le_of_lt h1) with he | hl
        · rw [← he, herr]
          exact not_lt.mp hc
        · exact hmin i hl h2
      · rcases hend with h | h
        · exact Or.inl h
        · exact Or.inr (by omega)

/-- The full loop as called by `computePower`: start vector all ones, first
`v_old` the zero vector. -/
lemma powerLoop_start {n : ℕ} (nrm : Vec n → ℚ) (D : Mat n) (f : ℕ) :
    ∃ J, 1 ≤ J ∧ J ≤ f + 1 ∧
      powerLoop nrm D (f + 1) (powOrbit nrm D 0) 0 = powOrbit nrm D J ∧
      (∀ i, 1 ≤ i → i < J → powTol ≤ powErr nrm D i) ∧
      (powErr nrm D J < powTol ∨ J = f + 1) := by
  have hstep : powerLoop nrm D (f + 1) (powOrbit nrm D 0) 0
      = if nrm (powOrbit nrm D 1 - 0) < powTol then powOrbit nrm D 1
        else powerLoop nrm D f (powOrbit nrm D 1) (powOrbit nrm D 1) := rfl
  have herr1 : powErr nrm D 1 = nrm (powOrbit nrm D 1 - 0) := rfl
  by_cases hc : nrm (powOrbit nrm D 1 - 0) < powTol
  · exact ⟨1, le_refl 1, by omega, by rw [hstep, if_pos hc],
      fun i h1 h2 => absurd h2 (by omega), Or.inl (by rw [herr1]; exact hc)⟩
  · cases f with
    | zero =>
      refine ⟨1, le_refl 1, by omega, ?_, fun i h1 h2 => absurd h2 (by omega),
        Or.inr rfl⟩
      rw [hstep, if_neg hc]
      rfl
    | succ f2 =>
      obtain ⟨J, hJ1, hJ2, hres, hmin, hend⟩ :=
        powerLoop_steady nrm D (f2 + 1) 1 (le_refl 1)
      refine ⟨J, by omega, by omega, ?_, ?_, ?_⟩
      · rw [hstep, if_neg hc]
        exact hres
      · intro i h1 h2
        rcases Nat.eq_or_lt_of_le h1 with he | hl
        · rw [← he, herr1]
          exact not_lt.mp hc
        · exact hmin i hl h2
      · rcases hend with h | h
        · exact Or.inl h
        · exact Or.inr (by omega)

/-- C6.  The loop contract of `computePower`: the cap is 100 passes and the
tolerance 1e-5; the iteration matrix is `K_L⁻¹ (K_NL - K_L)`; the iterates
follow `v := normalize (D * v)`; and the stored vector is the J-th iterate
for some `1 ≤ J ≤ 100` such that every earlier pass had error at or above
the tolerance (the loop stops at the first pass below tolerance) and either
the J-th error is below tolerance or `J = 100` — i.e. on non-convergence the
loop silently runs out of fuel and the last iterate is stored; no error
signal exists, `computePower` is total. -/
theorem computePower_loop_contract {n : ℕ} (nrm : Vec n → ℚ)
    (K_L K_NL : Mat n) :
    powKmax = 100 ∧ powTol = 1 / 100000 ∧
    powD K_L K_NL = K_L⁻¹ * (K_NL - K_L) ∧
    (∀ k, powOrbit nrm (powD K_L K_NL) (k + 1)
      = normalizeV nrm ((powD K_L K_NL).mulVec
          (powOrbit nrm (powD K_L K_NL) k))) ∧
    ∃ J, 1 ≤ J ∧ J ≤ powKmax ∧
      (computePower nrm K_L K_NL).vec = powOrbit nrm (powD K_L K_NL) J ∧
      (∀ i, 1 ≤ i → i < J → powTol ≤ powErr nrm (powD K_L K_NL) i) ∧
      (powErr nrm (powD K_L K_NL) J < powTol ∨ J = powKmax) := by
  refine ⟨rfl, rfl, by rw [powD, qInv_eq_inv], fun k => rfl, ?_⟩
  obtain ⟨J, h1, h2, h3, h4, h5⟩ := powerLoop_start nrm (powD K_L K_NL) 99
  exact ⟨J, h1, h2, h3, h4, h5⟩

lemma oneByOne_mulVec_cvec (d c : ℚ) :
    (oneByOne d).mulVec (cvec c) = cvec (d * c) := by
  rw [oneByOne_mulVec]
  rfl

lemma normalizeV_cvec (c : ℚ) :
    normalizeV absNorm (cvec c) = cvec (c / |c|) := rfl

lemma cvec_sub (a b : ℚ) : cvec a - cvec b = cvec (a - b) := rfl

lemma absNorm_cvec (c : ℚ) : absNorm (cvec c) = |c| := rfl

lemma dot_cvec (x y : ℚ) : Matrix.dotProduct (cvec x) (cvec y) = x * y := by
  simp [Matrix.dotProduct, Fin.sum_univ_one, cvec]

lemma powD_oneByOne (a b : ℚ) :
    powD (oneByOne a) (oneByOne b) = oneByOne ((b - a) / a) := by
  have hdet : (oneByOne a).det = a := by
    rw [Matrix.det_fin_one]
    rfl
  have hadj : (oneByOne a).adjugate = 1 := Matrix.adjugate_fin_one _
  rw [powD, qInv, hdet, hadj, oneByOne_sub, Matrix.smul_mul, Matrix.one_mul,
    oneByOne_smul, div_eq_mul_inv, mul_comm]

/-- For positive d the steady state of the loop is the one-vector: the next
pass reproduces it with error 0 and the loop stops. -/
lemma powerLoop_pos (d : ℚ) (hd : 0 < d) (f : ℕ) :
    powerLoop absNorm (oneByOne d) (f + 1) (cvec 1) (cvec 1) = cvec 1 := by
  have hw : normalizeV absNorm ((oneByOne d).mulVec (cvec 1)) = cvec 1 := by
    rw [oneByOne_mulVec_cvec, normalizeV_cvec, mul_one, abs_of_pos hd,
      div_self (ne_of_gt hd)]
  have hstep : powerLoop absNorm (oneByOne d) (f + 1) (cvec 1) (cvec 1)
      = if absNorm (normalizeV absNorm ((oneByOne d).mulVec (cvec 1)) - cvec 1)
            < powTol
        then normalizeV absNorm ((oneByOne d).mulVec (cvec 1))
        else powerLoop absNorm (oneByOne d) f
          (normalizeV absNorm ((oneByOne d).mulVec (cvec 1)))
          (normalizeV absNorm ((oneByOne d).mulVec (cvec 1))) := rfl
  rw [hstep, hw, if_pos]
  rw [cvec_sub, sub_self, absNorm_cvec]
  norm_num [powTol]

/-- For negative d the normalized iterates alternate between the one-vector
and its negation, the error always being 2: with fuel f left and current
state ±1, the loop runs out of fuel and returns the sign flipped f times. -/
lemma powerLoop_alt (d : ℚ) (hd : d < 0) :
    ∀ (f : ℕ) (c : ℚ), c = 1 ∨ c = -1 →
      powerLoop absNorm (oneByOne d) f (cvec c) (cvec c)
        = cvec ((-1) ^ f * c) := by
  intro f
  induction f with
  | zero =>
    intro c hc
    rw [pow_zero, one_mul]
    rfl
  | succ f ih =>
    intro c hc
    have hw : normalizeV absNorm ((oneByOne d).mulVec (cvec c)) = cvec (-c) := by
      rw [oneByOne_mulVec_cvec, normalizeV_cvec]
      rcases hc with h | h
      · subst h
        rw [mul_one, abs_of_neg hd, div_neg, div_self (ne_of_lt hd)]
      · subst h
        rw [mul_neg_one, abs_of_pos (neg_pos.mpr hd),
          div_self (neg_ne_zero.mpr (ne_of_lt hd))]
        norm_num
    have hstep : powerLoop absNorm (oneByOne d) (f + 1) (cvec c) (cvec c)
        = if absNorm (normalizeV absNorm ((oneByOne d).mulVec (cvec c)) - cvec c)
              < powTol
          then normalizeV absNorm ((oneByOne d).mulVec (cvec c))
          else powerLoop absNorm (oneByOne d) f
            (normalizeV absNorm ((oneByOne d).mulVec (cvec c)))
            (normalizeV absNorm ((oneByOne d).mulVec (cvec c))) := rfl
    have hcond : ¬ (absNorm (cvec (-c) - cvec c) < powTol) := by
      rw [cvec_sub, absNorm_cvec]
      rcases hc with h | h <;> subst h <;> norm_num [powTol]
    rw [hstep, hw, if_neg hcond,
      ih (-c) (by rcases hc with h | h <;> subst h <;> simp)]
    have hpow : (-1 : ℚ) ^ f * -c = (-1) ^ (f + 1) * c := by
      rw [pow_succ]
      ring
    rw [hpow]

/-- The full `computePower` loop on the 1×1 matrix `[[d]]`, `d ≠ 0`, returns
the one-vector: for positive d the second pass already has error 0, for
negative d the iterates alternate and pass 100 (even) lands on +1. -/
lemma powerLoop_oneByOne (d : ℚ) (hd : d ≠ 0) :
    powerLoop absNorm (oneByOne d) 100 (cvec 1) 0 = cvec 1 := by
  rw [show (100 : ℕ) = 99 + 1 from rfl, powerLoop_succ]
  rcases lt_or_gt_of_ne hd with hneg | hpos
  · have hw : normalizeV absNorm ((oneByOne d).mulVec (cvec 1)) = cvec (-1) := by
      rw [oneByOne_mulVec_cvec, normalizeV_cvec, mul_one, abs_of_neg hneg,
        div_neg, div_self (ne_of_lt hneg)]
    have hcond : ¬ (absNorm (cvec (-1) - (0 : Vec 1)) < powTol) := by
      rw [sub_zero, absNorm_cvec]
      norm_num [powTol]
    rw [hw, if_neg hcond, powerLoop_alt d hneg 99 (-1) (Or.inr rfl)]
    have h99 : ((-1 : ℚ)) ^ 99 * (-1) = 1 := by norm_num
    rw [h99]
  · have hw : normalizeV absNorm ((oneByOne d).mulVec (cvec 1)) = cvec 1 := by
      rw [oneByOne_mulVec_cvec, normalizeV_cvec, mul_one, abs_of_pos hpos,
        div_self (ne_of_gt hpos)]
    have hcond : ¬ (absNorm (cvec 1 - (0 : Vec 1)) < powTol) := by
      rw [sub_zero, absNorm_cvec]
      norm_num [powTol]
    rw [hw, if_neg hcond]
    exact powerLoop_pos d hpos 98

/-- C7, counterexample.  For `K_L = [[1]]`, `K_NL = [[3]]` the iteration
matrix is the diagonal `D = [[2]]` with strictly dominant eigenvalue 2;
`computePower` converges to the dominant eigenvector, yet the stored value
is 1/2 — the reciprocal of the dominant eigenvalue, not the dominant
eigenvalue 2 stated by the claim. -/
theorem computePower_value_not_dominant :
    powD (oneByOne 1) (oneByOne 3) = oneByOne 2 ∧
    (computePower absNorm (oneByOne 1) (oneByOne 3)).vec = cvec 1 ∧
    (computePower absNorm (oneByOne 1) (oneByOne 3)).val = 1 / 2 ∧
    (computePower absNorm (oneByOne 1) (oneByOne 3)).val
      ≠ powD (oneByOne 1) (oneByOne 3) 0 0 := by
  have hD : powD (oneByOne 1) (oneByOne 3) = oneByOne 2 := by
    rw [powD_oneByOne]
    norm_num
  have hvec : (computePower absNorm (oneByOne 1) (oneByOne 3)).vec = cvec 1 := by
    show powerLoop absNorm (powD (oneByOne 1) (oneByOne 3)) powKmax
        (fun _ => 1) 0 = cvec 1
    rw [hD]
    exact powerLoop_oneByOne 2 (by norm_num)
  have hval : (computePower absNorm (oneByOne 1) (oneByOne 3)).val = 1 / 2 := by
    show Matrix.dotProduct (computePower absNorm (oneByOne 1) (oneByOne 3)).vec
        (computePower absNorm (oneByOne 1) (oneByOne 3)).vec
      / Matrix.dotProduct (computePower absNorm (oneByOne 1) (oneByOne 3)).vec
        ((powD (oneByOne 1) (oneByOne 3)).mulVec
          (computePower absNorm (oneByOne 1) (oneByOne 3)).vec) = 1 / 2
    rw [hvec, hD, oneByOne_mulVec_cvec, dot_cvec, dot_cvec]
    norm_num
  refine ⟨hD, hvec, hval, ?_⟩
  rw [hval, hD]
  show (1 : ℚ) / 2 ≠ 2
  norm_num

/-- C7, amended.  For every single-DOF pair `K_L = [[a]]`, `K_NL = [[b]]`
with `a ≠ 0` and nonzero `d = (b-a)/a`, `computePower` terminates within
its cap storing the dominant eigenvector of the (diagonal, strictly
dominant) `D = [[d]]` — the one-vector, satisfying `D v = d v` — and its
stored value is the RECIPROCAL `1/d` of the dominant eigenvalue of `D`
(the corresponding buckling factor), not the eigenvalue itself. -/
theorem computePower_reciprocal_value (a b : ℚ) (_ha : a ≠ 0)
    (hd : (b - a) / a ≠ 0) :
    (computePower absNorm (oneByOne a) (oneByOne b)).vec = cvec 1 ∧
    (powD (oneByOne a) (oneByOne b)).mulVec
        (computePower absNorm (oneByOne a) (oneByOne b)).vec
      = powD (oneByOne a) (oneByOne b) 0 0 •
        (computePower absNorm (oneByOne a) (oneByOne b)).vec ∧
    (computePower absNorm (oneByOne a) (oneByOne b)).val
      = (powD (oneByOne a) (oneByOne b) 0 0)⁻¹ := by
  have hD := powD_oneByOne a b
  have hvec : (computePower absNorm (oneByOne a) (oneByOne b)).vec = cvec 1 := by
    show powerLoop absNorm (powD (oneByOne a) (oneByOne b)) powKmax
        (fun _ => 1) 0 = cvec 1
    rw [hD]
    exact powerLoop_oneByOne ((b - a) / a) hd
  have hentry : powD (oneByOne a) (oneByOne b) 0 0 = (b - a) / a := by
    rw [hD]
    rfl
  have hentry2 : oneByOne ((b - a) / a) 0 0 = (b - a) / a := rfl
  refine ⟨hvec, ?_, ?_⟩
  · rw [hvec, hD, oneByOne_mulVec_cvec, hentry2]
    funext i
    simp [cvec, oneByOne, Pi.smul_apply]
  · show Matrix.dotProduct (computePower absNorm (oneByOne a) (oneByOne b)).vec
        (computePower absNorm (oneByOne a) (oneByOne b)).vec
      / Matrix.dotProduct (computePower absNorm (oneByOne a) (oneByOne b)).vec
        ((powD (oneByOne a) (oneByOne b)).mulVec
          (computePower absNorm (oneByOne a) (oneByOne b)).vec)
      = (powD (oneByOne a) (oneByOne b) 0 0)⁻¹
    rw [hvec, hD, oneByOne_mulVec_cvec, hentry2, dot_cvec, dot_cvec]
    simp only [one_mul, mul_one]
    exact one_div ((b - a) / a)

theorem computePower_reciprocal_value_witness :
    (1 : ℚ) ≠ 0 ∧ ((3 : ℚ) - 1) / 1 ≠ 0 ∧
    ((computePower absNorm (oneByOne 1) (oneByOne 3)).vec = cvec 1 ∧
      (powD (oneByOne 1) (oneByOne 3)).mulVec
          (computePower absNorm (oneByOne 1) (oneByOne 3)).vec
        = powD (oneByOne 1) (oneByOne 3) 0 0 •
          (computePower absNorm (oneByOne 1) (oneByOne 3)).vec ∧
      (computePower absNorm (oneByOne 1) (oneByOne 3)).val
        = (powD (oneByOne 1) (oneByOne 3) 0 0)⁻¹) :=
  ⟨by norm_num, by norm_num,
    computePower_reciprocal_value 1 3 (by norm_num) (by norm_num)⟩

end Theorems

end StructAnalysis
